import Mathlib

/-!
Verification of the core of `eyd.py`, a filesystem pruner: it walks a root
directory, classifies entries against a normalized keep list, and moves every
entry not covered by the keep list into a timestamped quarantine directory.

Python strings are sequences of code points; we model them as Lean `String`
and give the handful of Python string/path primitives the program uses as
functions on the underlying character list, so that everything is executable
and kernel-reducible.  The filesystem is modelled as an immutable snapshot
tree (`FSTree`); the stateful parts of the program (`move_dirty`, `main`)
are modelled as the sequence of mutation effects they perform on that
snapshot.
-/

namespace Eyd

/-- Python `s.startswith(p)`: `p` is a prefix of `s`. -/
def pystartswith (s p : String) : Bool := p.data.isPrefixOf s.data

/-- Python slicing `s[n:]` (strings are sequences of code points). -/
def pydrop (s : String) (n : Nat) : String := String.mk (s.data.drop n)

/-- Python `len(s)`. -/
def pylen (s : String) : Nat := s.data.length

/-- Python `s.rstrip('/')`: remove every trailing `'/'`. -/
def rstripSlash (s : String) : String :=
  String.mk (s.data.reverse.dropWhile (fun c => c == '/')).reverse

/-- Python `s.endswith('/')`. -/
def endsWithSlash (s : String) : Bool := s.data.getLast? == some '/'

/-- `os.path.join(a, b)` for POSIX paths and two arguments, following
CPython's `posixpath.join`: an absolute `b` replaces `a`; otherwise the two
are glued, inserting `'/'` unless `a` is empty or already ends with `'/'`. -/
def os_path_join (a b : String) : String :=
  if pystartswith b "/" then b
  else if a = "" || endsWithSlash a then a ++ b
  else a ++ "/" ++ b

/-- `os.path.dirname(p)` for POSIX paths, following CPython's
`posixpath.dirname`: everything up to and including the last `'/'`, with
trailing slashes then stripped unless the result is made of slashes only. -/
def dirname (p : String) : String :=
  let head := (p.data.reverse.dropWhile (fun c => c != '/')).reverse
  if head.isEmpty || head.all (fun c => c == '/') then String.mk head
  else String.mk (head.reverse.dropWhile (fun c => c == '/')).reverse

/-- Code-point lexicographic comparison of character lists: exactly Python's
`<=` on strings. -/
def charListLe : List Char → List Char → Bool
  | [], _ => true
  | _ :: _, [] => false
  | a :: as, b :: bs => if a < b then true else if b < a then false else charListLe as bs

/-- Python `a <= b` on strings (code-point lexicographic). -/
def strle (a b : String) : Bool := charListLe a.data b.data

instance strleDecidableRel : DecidableRel (fun a b : String => strle a b = true) :=
  fun a b => instDecidableEqBool (strle a b) true

/-- Python `sorted` on a list of strings.  `sorted` is a stable sort for the
code-point lexicographic order, and a stable sort is unique, so insertion
sort computes the same list. -/
def pysorted (l : List String) : List String :=
  List.insertionSort (fun a b => strle a b = true) l

mutual
/-- A snapshot of a filesystem object: a non-directory (leaf), or a directory
with its named children.  Being a `dir` is exactly what Python's
`entry.is_dir()` reports during the walk. -/
inductive FSTree where
  | file : FSTree
  | dir : FSList → FSTree
/-- The children of a directory: `(name, subtree)` pairs in the (arbitrary)
iteration order that `pathlib.Path(...).iterdir()` produces. -/
inductive FSList where
  | nil : FSList
  | cons : String → FSTree → FSList → FSList
end

/-- Python `entry.is_dir()`. -/
def FSTree.isDir : FSTree → Bool
  | .file => false
  | .dir _ => true

/-- The list of child names of a directory level. -/
def FSList.names : FSList → List String
  | .nil => []
  | .cons n _ rest => n :: rest.names

/-- No string occurs twice. -/
def nodupNames : List String → Bool
  | [] => true
  | x :: xs => !(xs.contains x) && nodupNames xs

/-- A valid directory-entry name: nonempty and without `'/'`. -/
def validEntryName (n : String) : Bool :=
  !(n.data.isEmpty) && !(n.data.contains '/')

mutual
/-- Well-formedness of a filesystem snapshot: at every directory level the
sibling names are pairwise distinct and every name is a valid component.
Real filesystems guarantee this. -/
def wf : FSTree → Bool
  | .file => true
  | .dir cs => nodupNames cs.names && wfList cs
/-- Well-formedness of a children list (see `wf`). -/
def wfList : FSList → Bool
  | .nil => true
  | .cons n t rest => validEntryName n && wf t && wfList rest
end

/-- `eyd.py` lines 11-17, `walk_action`: scan the keep list in order; `"skip"`
when the entry equals the keep element, `"recurse"` when the keep element
starts with `entry + '/'`, `"yield"` when the loop finishes unmatched. -/
def walk_action (entry : String) (keep : List String) : String :=
  match keep with
  | [] => "yield"
  | path :: rest =>
    if entry = path then "skip"
    else if pystartswith path (entry ++ "/") then "recurse"
    else walk_action entry rest

/-- The absolute path of a directory entry named `name` inside `root`, as
`entry.absolute().as_posix()` computes it for a normalized `root`: glue with
`'/'` unless `root` already ends with one. -/
def childPath (root name : String) : String :=
  if endsWithSlash root then root ++ name else root ++ "/" ++ name

mutual
/-- `eyd.py` lines 20-28, `walk`: the list of paths the generator yields when
run over the snapshot `t` sitting at path `root`.  `walk` is only ever invoked
on directories (Python's `iterdir` would raise otherwise); on a `file`
snapshot it produces nothing. -/
def walk (root : String) (t : FSTree) (keep : List String) : List String :=
  match t with
  | .file => []
  | .dir cs => walkEntries root cs keep
/-- The body of `walk`'s `for entry in pathlib.Path(root).iterdir()` loop:
classify each child; on `"recurse"` descend only if the child is a directory,
on `"yield"` emit the child's absolute path, on `"skip"` do nothing. -/
def walkEntries (root : String) (cs : FSList) (keep : List String) : List String :=
  match cs with
  | .nil => []
  | .cons name child rest =>
    let entry := childPath root name
    let action := walk_action entry keep
    (if action = "recurse" then
      (if child.isDir then walk entry child keep else [])
     else if action = "yield" then [entry] else []) ++ walkEntries root rest keep
end

/-- The inner loop of `normalize_keep` (`eyd.py` lines 33-37): `item1` reaches
the `else` clause (survives) exactly when no distinct member of `items` is a
strict string-ancestor of it (`item1.startswith(item2 + '/')`). -/
def survives (items : List String) (item1 : String) : Bool :=
  !(items.any (fun item2 => item2 != item1 && pystartswith item1 (item2 ++ "/")))

/-- `eyd.py` lines 31-39, `normalize_keep`: keep the items with no strict
string-ancestor in the set, join each survivor (with its leading character
dropped) onto `root`, and sort.  The Python argument is a `set`; we take a
list of its elements (the sorted output does not depend on the order). -/
def normalize_keep (root : String) (items : List String) : List String :=
  pysorted ((items.filter (survives items)).map
    (fun item1 => os_path_join root (pydrop item1 1)))

/-- One filesystem mutation performed by `move_dirty`, in order.  `makedirs p`
stands for the guarded `if not os.path.isdir(parent): os.makedirs(parent, 0o700)`
step; `rmtree` and `move` are `shutil.rmtree` and `shutil.move`. -/
inductive Effect where
  | rmtree : String → Effect
  | makedirs : String → Effect
  | move : String → String → Effect
deriving DecidableEq

/-- `eyd.py` lines 42-52, `move_dirty`, as the sequence of mutations it
performs: re-root `target` under `root`, remove a pre-existing directory at
that path (`targetIsDir` is the initial `os.path.isdir(target)` probe), then
for each walked path ensure the destination's parent exists and move the path
to the target joined with its root-relative remainder. -/
def move_dirty (root target : String) (targetIsDir : Bool) (fs : FSTree)
    (keep : List String) : List Effect :=
  let target1 := os_path_join root (pydrop target 1)
  (if targetIsDir then [Effect.rmtree target1] else []) ++
    (walk root fs keep).flatMap (fun path =>
      let dest := os_path_join target1 (pydrop (pydrop path (pylen (rstripSlash root))) 1)
      [Effect.makedirs (dirname dest), Effect.move path dest])

/-- The keep-fragment decoding loop of `main` (`eyd.py` lines 65-67): each
argument is decoded (`json.loads`, abstracted as `decode`) and the resulting
lists are concatenated; the first failure raises, so the whole computation
yields nothing. -/
def parseKeepArgs (decode : String → Option (List String)) :
    List String → Option (List String)
  | [] => some []
  | a :: rest =>
    match decode a with
    | none => none
    | some ks =>
      match parseKeepArgs decode rest with
      | none => none
      | some more => some (ks ++ more)

/-- `eyd.py` lines 55-82, `main`, with the external collaborators injected as
plain values: `decode` for `json.loads`, `mountpoints` for the mountpoints of
`psutil.disk_partitions()`, `ts` for the formatted timestamp, and
`fs`/`targetIsDir` for the filesystem snapshot seen by `move_dirty`.
`List.dedup` models Python's `set(...)` (the sorted output of `normalize_keep`
does not depend on a set's iteration order).  The result is `none` when a
keep argument fails to decode — `main` raises there, before any mutation —
and otherwise the effect trace of the run. -/
def mainModel (decode : String → Option (List String)) (root : String)
    (args : List String) (mountpoints : List String) (ts : String)
    (fs : FSTree) (targetIsDir : Bool) : Option (List Effect) :=
  let target := "/oldroot"
  let mps := (mountpoints.filter (fun x => pystartswith x (root ++ "/"))).dedup
  match parseKeepArgs decode args with
  | none => none
  | some keepRaw =>
    let keep1 := normalize_keep root ((keepRaw ++ [target]).dedup)
    let keep := normalize_keep "/"
      ((keep1.dedup ++ mps.filter (fun x => x != root)).dedup)
    some (move_dirty root (os_path_join target ts) targetIsDir fs keep)

example : walk "/r" (.dir (.cons "a" (.dir (.cons "x" .file .nil)) .nil))
    ["/r/a/b", "/r/a"] = ["/r/a/x"] := rfl

example : normalize_keep "/base" ["/a", "/a/b"] = ["/base/a"] := rfl

example : walk_action "/a" ["/ab"] = "yield" := rfl

example : dirname "/data/oldroot/T/y" = "/data/oldroot/T" := rfl

example : mainModel (fun _ => none) "/data" [] ["/data"] "T"
    (.dir (.cons "y" .file .nil)) false =
    some [Effect.makedirs "/data/oldroot/T", Effect.move "/data/y" "/data/oldroot/T/y"] := rfl

/-! ### Basic facts about the string primitives -/

lemma pystartswith_iff {s p : String} : pystartswith s p = true ↔ p.data <+: s.data := by
  simp [pystartswith, List.isPrefixOf_iff_prefix]

lemma pystartswith_false {s p : String} : pystartswith s p = false ↔ ¬ p.data <+: s.data := by
  rw [← Bool.not_eq_true, pystartswith_iff]

lemma append_slash_data (e : String) : (e ++ "/").data = e.data ++ ['/'] := by
  rw [String.data_append]

lemma not_append_slash_isPre (l : List Char) : ¬ (l ++ ['/'] <+: l) := by
  intro h
  have := h.length_le
  simp at this

lemma pystartswith_self_slash (root : String) : pystartswith root (root ++ "/") = false := by
  rw [pystartswith_false, append_slash_data]
  exact not_append_slash_isPre root.data

/-! ### Characterizations of `walk_action` -/

lemma walk_action_nil (entry : String) : walk_action entry [] = "yield" := rfl

lemma walk_action_cons (entry p : String) (rest : List String) :
    walk_action entry (p :: rest) =
      if entry = p then "skip"
      else if pystartswith p (entry ++ "/") then "recurse"
      else walk_action entry rest := rfl

lemma walk_action_trichotomy (entry : String) (keep : List String) :
    walk_action entry keep = "skip" ∨ walk_action entry keep = "recurse" ∨
      walk_action entry keep = "yield" := by
  induction keep with
  | nil => right; right; rfl
  | cons p rest ih =>
    rw [walk_action_cons]
    split_ifs with h1 h2
    · left; rfl
    · right; left; rfl
    · exact ih

lemma walk_action_yield_iff {entry : String} {keep : List String} :
    walk_action entry keep = "yield" ↔
      ∀ p ∈ keep, entry ≠ p ∧ ¬ (entry.data ++ ['/'] <+: p.data) := by
  induction keep with
  | nil => simp [walk_action_nil]
  | cons p rest ih =>
    rw [walk_action_cons]
    split_ifs with h1 h2
    · subst h1
      constructor
      · intro h; exact absurd h (by decide)
      · intro h; exact absurd rfl (h entry (List.mem_cons_self _ _)).1
    · constructor
      · intro h; exact absurd h (by decide)
      · intro h
        have := (h p (List.mem_cons_self _ _)).2
        rw [← append_slash_data] at this
        exact absurd (pystartswith_iff.mp h2) this
    · rw [ih]
      constructor
      · intro h q hq
        rcases List.mem_cons.mp hq with rfl | hq'
        · refine ⟨h1, ?_⟩
          rw [← append_slash_data]
          intro hc
          rw [pystartswith_iff.mpr hc] at h2
          exact h2 rfl
        · exact h q hq'
      · intro h q hq
        exact h q (List.mem_cons_of_mem _ hq)

lemma walk_action_recurse {entry : String} {keep : List String}
    (h : walk_action entry keep = "recurse") :
    ∃ p ∈ keep, (entry.data ++ ['/'] <+: p.data) := by
  induction keep with
  | nil => rw [walk_action_nil] at h; exact absurd h (by decide)
  | cons p rest ih =>
    rw [walk_action_cons] at h
    split_ifs at h with h1 h2
    · exact absurd h (by decide)
    · refine ⟨p, List.mem_cons_self _ _, ?_⟩
      rw [← append_slash_data]
      exact pystartswith_iff.mp h2
    · obtain ⟨q, hq, hq2⟩ := ih h
      exact ⟨q, List.mem_cons_of_mem _ hq, hq2⟩

lemma walk_action_skip_mem {entry : String} {keep : List String}
    (h : walk_action entry keep = "skip") : entry ∈ keep := by
  induction keep with
  | nil => rw [walk_action_nil] at h; exact absurd h (by decide)
  | cons p rest ih =>
    rw [walk_action_cons] at h
    split_ifs at h with h1 h2
    · exact h1 ▸ List.mem_cons_self _ _
    · exact absurd h (by decide)
    · exact List.mem_cons_of_mem _ (ih h)

example : pysorted ["/r/a/b", "/r/a"] = ["/r/a", "/r/a/b"] := by decide

example : normalize_keep "/r" ["/a", "//r/a/b"] = ["/r/a", "/r/a/b"] := by decide

example : normalize_keep "/" ["///a"] = ["//a"] := by decide

example : normalize_keep "/" ["//a"] = ["/a"] := by decide

example : ("/r/a".data <+: "/r/a/b".data) := by decide

/-! ### The sort order -/

lemma charListLe_total : ∀ a b : List Char, charListLe a b = true ∨ charListLe b a = true := by
  intro a
  induction a with
  | nil => intro b; left; rfl
  | cons x xs ih =>
    intro b
    cases b with
    | nil => right; rfl
    | cons y ys =>
      rcases lt_trichotomy x y with h | h | h
      · left; simp [charListLe, h]
      · subst h
        rcases ih ys with h' | h'
        · left; simp [charListLe, lt_irrefl, h']
        · right; simp [charListLe, lt_irrefl, h']
      · right; simp [charListLe, h]

lemma charListLe_trans : ∀ a b c : List Char, charListLe a b = true →
    charListLe b c = true → charListLe a c = true := by
  intro a
  induction a with
  | nil => intro b c _ _; rfl
  | cons x xs ih =>
    intro b c hab hbc
    cases b with
    | nil => simp [charListLe] at hab
    | cons y ys =>
      cases c with
      | nil => simp [charListLe] at hbc
      | cons z zs =>
        simp only [charListLe] at hab hbc ⊢
        split_ifs at hab with h1 h2
        · split_ifs at hbc with h3 h4
          · simp [lt_trans h1 h3]
          · have hyz : y = z := le_antisymm (not_lt.mp h4) (not_lt.mp h3)
            simp [hyz ▸ h1]
        · have hxy : x = y := le_antisymm (not_lt.mp h2) (not_lt.mp h1)
          subst hxy
          split_ifs at hbc with h3 h4
          · simp [h3]
          · have hxz : x = z := le_antisymm (not_lt.mp h4) (not_lt.mp h3)
            subst hxz
            simp [lt_irrefl, ih ys zs hab hbc]

instance strleIsTotal : IsTotal String (fun a b => strle a b = true) :=
  ⟨fun a b => charListLe_total a.data b.data⟩

instance strleIsTrans : IsTrans String (fun a b => strle a b = true) :=
  ⟨fun a b c => charListLe_trans a.data b.data c.data⟩

/-! ### normalize_keep -/

lemma survives_iff {items : List String} {g : String} :
    survives items g = true ↔
      ∀ f ∈ items, f ≠ g → ¬ (f.data ++ ['/'] <+: g.data) := by
  simp [survives, pystartswith_iff, append_slash_data, List.any_eq_true]

/-- The non-`b`-dependent part of `os_path_join a b` for a non-absolute `b`. -/
def glue (a : String) : List Char :=
  if a = "" || endsWithSlash a then a.data else a.data ++ ['/']

lemma os_path_join_data {a b : String} (hb : pystartswith b "/" = false) :
    (os_path_join a b).data = glue a ++ b.data := by
  rw [os_path_join, glue, if_neg (by simp [hb])]
  split_ifs with h
  · rw [String.data_append]
  · rw [String.data_append, append_slash_data]

lemma pydrop_one_data (f : String) : (pydrop f 1).data = f.data.drop 1 := rfl

lemma pystartswith_slash_false {s : String} (h : s.data.head? ≠ some '/') :
    pystartswith s "/" = false := by
  rw [pystartswith_false]
  rintro ⟨t, ht⟩
  apply h
  rw [← ht]
  rfl

lemma data_eq_slash_cons {f : String} (h : f.data.head? = some '/') :
    f.data = '/' :: f.data.drop 1 := by
  cases hcd : f.data with
  | nil => rw [hcd] at h; exact absurd h (by simp)
  | cons c rest =>
    rw [hcd] at h
    simp only [List.head?_cons, Option.some.injEq] at h
    subst h
    rfl

lemma normalize_keep_not_nested {root : String} {items : List String}
    (hfrag : ∀ f ∈ items, f.data.head? = some '/' ∧ (f.data.drop 1).head? ≠ some '/') :
    ∀ x ∈ normalize_keep root items, ∀ y ∈ normalize_keep root items,
      ¬ (x.data ++ ['/'] <+: y.data) := by
  intro x hx y hy hpre
  rw [normalize_keep, pysorted, List.mem_insertionSort] at hx hy
  obtain ⟨f, hf, rfl⟩ := List.mem_map.mp hx
  obtain ⟨g, hg, rfl⟩ := List.mem_map.mp hy
  have hfI := (List.mem_filter.mp hf).1
  have hgI := (List.mem_filter.mp hg).1
  have hgS := (List.mem_filter.mp hg).2
  have hf' := hfrag f hfI
  have hg' := hfrag g hgI
  have hjf : (os_path_join root (pydrop f 1)).data = glue root ++ f.data.drop 1 := by
    rw [os_path_join_data (pystartswith_slash_false (by rw [pydrop_one_data]; exact hf'.2))]
    rw [pydrop_one_data]
  have hjg : (os_path_join root (pydrop g 1)).data = glue root ++ g.data.drop 1 := by
    rw [os_path_join_data (pystartswith_slash_false (by rw [pydrop_one_data]; exact hg'.2))]
    rw [pydrop_one_data]
  rw [hjf, hjg, List.append_assoc] at hpre
  have hdropPre : f.data.drop 1 ++ ['/'] <+: g.data.drop 1 :=
    (List.prefix_append_right_inj (glue root)).mp hpre
  have hanc : f.data ++ ['/'] <+: g.data := by
    rw [data_eq_slash_cons hf'.1, data_eq_slash_cons hg'.1, List.cons_append]
    exact List.cons_prefix_cons.mpr ⟨rfl, hdropPre⟩
  have hne : f ≠ g := by
    intro he
    subst he
    exact not_append_slash_isPre f.data hanc
  exact (survives_iff.mp hgS f hfI hne) hanc

lemma os_path_join_root_drop {f : String} (h1 : f.data.head? = some '/')
    (h2 : (f.data.drop 1).head? ≠ some '/') :
    os_path_join "/" (pydrop f 1) = f := by
  apply String.ext
  rw [os_path_join_data (pystartswith_slash_false (by rw [pydrop_one_data]; exact h2))]
  rw [pydrop_one_data]
  have : glue "/" = ['/'] := by decide
  rw [this]
  exact (data_eq_slash_cons h1).symm

/-! ### Path-shape machinery for the walk -/

/-- A suffix that is empty or starts with a slash: what follows the first
path component of a walked path. -/
def HeadSlash (u : List Char) : Prop := u = [] ∨ ∃ w, u = '/' :: w

lemma headSlash_nil : HeadSlash [] := Or.inl rfl

lemma headSlash_cons (w : List Char) : HeadSlash ('/' :: w) := Or.inr ⟨w, rfl⟩

lemma headSlash_append {s : List Char} (w : List Char) (hs : HeadSlash s) :
    HeadSlash (s ++ '/' :: w) := by
  rcases hs with rfl | ⟨w', rfl⟩
  · exact headSlash_cons w
  · exact headSlash_cons (w' ++ '/' :: w)

lemma isPre_of_isPre_append {u v w : List Char} (h : u <+: v ++ w)
    (hl : u.length ≤ v.length) : u <+: v := by
  have h' := List.prefix_iff_eq_take.mp h
  rw [List.take_append_of_le_length hl] at h'
  exact List.prefix_iff_eq_take.mpr h'

lemma slashfree_lt_absurd {a b u v : List Char} (h : a ++ u = b ++ v)
    (hb : '/' ∉ b) (hu : HeadSlash u) (hl : a.length < b.length) : False := by
  have hdrop : u = b.drop a.length ++ v := by
    have hc := congrArg (List.drop a.length) h
    rwa [List.drop_left, List.drop_append_of_le_length (Nat.le_of_lt hl)] at hc
  have hbd : b.drop a.length ≠ [] := by
    rw [Ne, List.drop_eq_nil_iff]
    omega
  rcases hu with rfl | ⟨w, rfl⟩
  · exact hbd (List.append_eq_nil.mp hdrop.symm).1
  · cases hcd : b.drop a.length with
    | nil => exact hbd hcd
    | cons c cs =>
      rw [hcd, List.cons_append] at hdrop
      injection hdrop with h1 _
      apply hb
      rw [h1]
      exact List.mem_of_mem_drop (hcd ▸ List.mem_cons_self c cs)

lemma slashfree_append_inj {a b u v : List Char} (h : a ++ u = b ++ v)
    (ha : '/' ∉ a) (hb : '/' ∉ b) (hu : HeadSlash u) (hv : HeadSlash v) :
    a = b := by
  rcases Nat.lt_trichotomy a.length b.length with hl | hl | hl
  · exact (slashfree_lt_absurd h hb hu hl).elim
  · exact (List.append_inj h hl).1
  · exact (slashfree_lt_absurd h.symm ha hv hl).elim

lemma cross_ne {R n₁ n₂ s₁ s₂ : List Char}
    (h1 : '/' ∉ n₁) (h2 : '/' ∉ n₂) (hs1 : HeadSlash s₁) (hs2 : HeadSlash s₂)
    (hne : n₁ ≠ n₂) : R ++ n₁ ++ s₁ ≠ R ++ n₂ ++ s₂ := by
  intro h
  rw [List.append_assoc, List.append_assoc] at h
  exact hne (slashfree_append_inj (List.append_cancel_left h) h1 h2 hs1 hs2)

lemma cross_not_under {R n₁ n₂ s₁ s₂ : List Char}
    (h1 : '/' ∉ n₁) (h2 : '/' ∉ n₂) (hs1 : HeadSlash s₁) (hs2 : HeadSlash s₂)
    (hne : n₁ ≠ n₂) : ¬ ((R ++ n₁ ++ s₁) ++ ['/'] <+: R ++ n₂ ++ s₂) := by
  rintro ⟨w, hw⟩
  simp only [List.append_assoc, List.singleton_append, List.cons_append] at hw
  exact hne (slashfree_append_inj (List.append_cancel_left hw) h1 h2
    (headSlash_append w hs1) hs2)

/-- Two distinct walked paths are non-nested: neither equal nor one strictly
under the other. -/
def NonNested (a b : String) : Prop :=
  a ≠ b ∧ ¬ (a.data ++ ['/'] <+: b.data) ∧ ¬ (b.data ++ ['/'] <+: a.data)

lemma cross_nonNested {a b : String} {R n₁ n₂ s₁ s₂ : List Char}
    (hadata : a.data = R ++ n₁ ++ s₁) (hbdata : b.data = R ++ n₂ ++ s₂)
    (h1 : '/' ∉ n₁) (h2 : '/' ∉ n₂) (hs1 : HeadSlash s₁) (hs2 : HeadSlash s₂)
    (hne : n₁ ≠ n₂) : NonNested a b := by
  refine ⟨?_, ?_, ?_⟩
  · intro he
    apply cross_ne h1 h2 hs1 hs2 hne
    rw [← hadata, ← hbdata, he]
  · rw [hadata, hbdata]
    exact cross_not_under h1 h2 hs1 hs2 hne
  · rw [hadata, hbdata]
    exact cross_not_under h2 h1 hs2 hs1 (Ne.symm hne)

lemma cross_nonNested_cons {a b : String} {R : List Char} {n₁ n₂ : String}
    {s₁ s₂ : List Char}
    (hadata : a.data = R ++ '/' :: (n₁.data ++ s₁))
    (hbdata : b.data = R ++ '/' :: (n₂.data ++ s₂))
    (h1 : '/' ∉ n₁.data) (h2 : '/' ∉ n₂.data)
    (hs1 : HeadSlash s₁) (hs2 : HeadSlash s₂)
    (hne : n₁.data ≠ n₂.data) : NonNested a b := by
  have ha' : a.data = (R ++ ['/']) ++ n₁.data ++ s₁ := by
    rw [hadata]
    simp [List.append_assoc]
  have hb' : b.data = (R ++ ['/']) ++ n₂.data ++ s₂ := by
    rw [hbdata]
    simp [List.append_assoc]
  exact cross_nonNested ha' hb' h1 h2 hs1 hs2 hne

/-! ### childPath and well-formedness -/

lemma childPath_data {root name : String} (h : endsWithSlash root = false) :
    (childPath root name).data = root.data ++ '/' :: name.data := by
  rw [childPath, if_neg (by simp [h]), String.data_append, append_slash_data,
    List.append_assoc, List.singleton_append]

lemma validEntryName_iff {n : String} :
    validEntryName n = true ↔ n.data ≠ [] ∧ '/' ∉ n.data := by
  simp [validEntryName]

lemma endsWithSlash_false_iff {s : String} :
    endsWithSlash s = false ↔ s.data.getLast? ≠ some '/' := by
  simp [endsWithSlash]

lemma endsWithSlash_childPath {root name : String} (hr : endsWithSlash root = false)
    (hn : validEntryName name = true) : endsWithSlash (childPath root name) = false := by
  obtain ⟨hne, hmem⟩ := validEntryName_iff.mp hn
  rw [endsWithSlash_false_iff, childPath_data hr]
  have h1 : (root.data ++ '/' :: name.data).getLast? = name.data.getLast? := by
    rw [List.getLast?_append_of_ne_nil root.data (by simp)]
    cases hcd : name.data with
    | nil => exact absurd hcd hne
    | cons d ds => simp [List.getLast?_cons_cons]
  rw [h1]
  intro he
  exact hmem (List.mem_of_mem_getLast? he)

lemma wf_dir {cs : FSList} (h : wf (.dir cs) = true) :
    nodupNames cs.names = true ∧ wfList cs = true := by
  simpa [wf, Bool.and_eq_true] using h

lemma wfList_cons {n : String} {t : FSTree} {rest : FSList}
    (h : wfList (.cons n t rest) = true) :
    validEntryName n = true ∧ wf t = true ∧ wfList rest = true := by
  simpa [wfList, Bool.and_eq_true, and_assoc] using h

lemma nodupNames_cons {x : String} {xs : List String}
    (h : nodupNames (x :: xs) = true) : x ∉ xs ∧ nodupNames xs = true := by
  simpa [nodupNames, Bool.and_eq_true, List.elem_iff] using h

theorem validEntryName_of_mem {cs : FSList} {nm : String} (h : wfList cs = true)
    (hm : nm ∈ cs.names) : validEntryName nm = true := by
  match cs with
  | .nil => simp [FSList.names] at hm
  | .cons n t rest =>
    obtain ⟨hv, _, hrest⟩ := wfList_cons h
    rcases List.mem_cons.mp hm with rfl | hm'
    · exact hv
    · exact validEntryName_of_mem hrest hm'

/-! ### The shape of walked paths -/

mutual
/-- Every path produced by walking a well-formed snapshot at a normalized
root extends the root by a slash, a nonempty slash-free component, and an
empty-or-slash-headed remainder. -/
theorem walk_shape (t : FSTree) (root : String) (keep : List String)
    (hw : wf t = true) (hr : endsWithSlash root = false) :
    ∀ e ∈ walk root t keep, ∃ n s, e.data = root.data ++ '/' :: (n ++ s) ∧
      n ≠ [] ∧ '/' ∉ n ∧ HeadSlash s := by
  match t with
  | .file => intro e he; simp [walk] at he
  | .dir cs =>
    intro e he
    rw [walk] at he
    obtain ⟨nm, s, hnm, hdata, hs⟩ :=
      walkEntries_shape cs root keep (wf_dir hw).2 hr e he
    have hv := validEntryName_iff.mp (validEntryName_of_mem (wf_dir hw).2 hnm)
    exact ⟨nm.data, s, hdata, hv.1, hv.2, hs⟩

/-- Entries-level version of `walk_shape`, exposing the sibling name the
path descends through. -/
theorem walkEntries_shape (cs : FSList) (root : String) (keep : List String)
    (hw : wfList cs = true) (hr : endsWithSlash root = false) :
    ∀ e ∈ walkEntries root cs keep, ∃ nm s, nm ∈ cs.names ∧
      e.data = root.data ++ '/' :: (nm.data ++ s) ∧ HeadSlash s := by
  match cs with
  | .nil => intro e he; simp [walkEntries] at he
  | .cons name child rest =>
    intro e he
    obtain ⟨hv, hwc, hwr⟩ := wfList_cons hw
    simp only [walkEntries] at he
    rcases List.mem_append.mp he with hblk | hrest
    · split_ifs at hblk with hact hdir hact2
      · have hrc : endsWithSlash (childPath root name) = false :=
          endsWithSlash_childPath hr hv
        obtain ⟨n, s, hdata, hn, hsl, hs⟩ :=
          walk_shape child (childPath root name) keep hwc hrc e hblk
        refine ⟨name, '/' :: (n ++ s), List.mem_cons_self _ _, ?_, headSlash_cons _⟩
        rw [hdata, childPath_data hr]
        simp [List.append_assoc]
      · simp at hblk
      · rw [List.mem_singleton] at hblk
        subst hblk
        refine ⟨name, [], List.mem_cons_self _ _, ?_, headSlash_nil⟩
        rw [childPath_data hr]
        simp
      · simp at hblk
    · obtain ⟨nm, s, hnm, hdata, hs⟩ :=
        walkEntries_shape rest root keep hwr hr e hrest
      exact ⟨nm, s, List.mem_cons_of_mem _ hnm, hdata, hs⟩
end

/-! ### Pairwise non-nesting of the walk output -/

mutual
/-- The paths produced by walking a well-formed snapshot are pairwise
non-nested. -/
theorem walk_pairwise (t : FSTree) (root : String) (keep : List String)
    (hw : wf t = true) (hr : endsWithSlash root = false) :
    (walk root t keep).Pairwise NonNested := by
  match t with
  | .file => simp [walk]
  | .dir cs =>
    rw [walk]
    exact walkEntries_pairwise cs root keep (wf_dir hw).2 (wf_dir hw).1 hr

/-- Entries-level version of `walk_pairwise`. -/
theorem walkEntries_pairwise (cs : FSList) (root : String) (keep : List String)
    (hw : wfList cs = true) (hnd : nodupNames cs.names = true)
    (hr : endsWithSlash root = false) :
    (walkEntries root cs keep).Pairwise NonNested := by
  match cs with
  | .nil => simp [walkEntries]
  | .cons name child rest =>
    obtain ⟨hv, hwc, hwr⟩ := wfList_cons hw
    obtain ⟨hnm, hnd'⟩ := nodupNames_cons hnd
    simp only [walkEntries]
    rw [List.pairwise_append]
    refine ⟨?_, walkEntries_pairwise rest root keep hwr hnd' hr, ?_⟩
    · split_ifs with hact hdir hact2
      · exact walk_pairwise child (childPath root name) keep hwc
          (endsWithSlash_childPath hr hv)
      · simp
      · simp
      · simp
    · intro a ha b hb
      obtain ⟨nm, s₂, hnm2, hbdata, hs₂⟩ :=
        walkEntries_shape rest root keep hwr hr b hb
      have hashape : ∃ s₁, a.data = root.data ++ '/' :: (name.data ++ s₁) ∧
          HeadSlash s₁ := by
        split_ifs at ha with hact hdir hact2
        · obtain ⟨n, s, hdata, hn, hsl, hs⟩ :=
            walk_shape child (childPath root name) keep hwc
              (endsWithSlash_childPath hr hv) a ha
          refine ⟨'/' :: (n ++ s), ?_, headSlash_cons _⟩
          rw [hdata, childPath_data hr]
          simp [List.append_assoc]
        · simp at ha
        · rw [List.mem_singleton] at ha
          subst ha
          refine ⟨[], ?_, headSlash_nil⟩
          rw [childPath_data hr]
          simp
        · simp at ha
      obtain ⟨s₁, hadata, hs₁⟩ := hashape
      have hnames : name.data ≠ nm.data := by
        intro he
        exact hnm (String.ext he ▸ hnm2)
      have hvn := validEntryName_iff.mp hv
      have hvnm := validEntryName_iff.mp (validEntryName_of_mem hwr hnm2)
      exact cross_nonNested_cons hadata hbdata hvn.2 hvnm.2 hs₁ hs₂ hnames
end

/-! ### Safety of the walk with respect to the keep list -/

/-- The keep-list elements are pairwise non-nested under the string-ancestor
test — the invariant `normalize_keep` establishes. -/
def KeepNonNested (keep : List String) : Prop :=
  ∀ P ∈ keep, ∀ Q ∈ keep, ¬ (P.data ++ ['/'] <+: Q.data)

/-- `d` is neither equal to nor strictly under any keep element. -/
def SafeFrom (keep : List String) (d : String) : Prop :=
  ∀ P ∈ keep, d ≠ P ∧ ¬ (P.data ++ ['/'] <+: d.data)

lemma safe_child {keep : List String} {d e : String} {nm : List Char}
    (hsafe : SafeFrom keep d) (hnk : e ∉ keep)
    (hdata : e.data = d.data ++ '/' :: nm) (hsl : '/' ∉ nm) :
    SafeFrom keep e := by
  intro P hP
  refine ⟨fun he => hnk (he ▸ hP), ?_⟩
  intro hpre
  rw [hdata] at hpre
  rcases Nat.lt_trichotomy P.data.length d.data.length with hl | hl | hl
  · exact (hsafe P hP).2 (isPre_of_isPre_append hpre
      (by rw [List.length_append, List.length_singleton]; omega))
  · have hpre' : P.data ++ ['/'] <+: (d.data ++ ['/']) ++ nm := by
      simpa [List.append_assoc] using hpre
    have h1 : P.data ++ ['/'] <+: d.data ++ ['/'] :=
      isPre_of_isPre_append hpre' (by simp [hl])
    have h2 : P.data ++ ['/'] = d.data ++ ['/'] :=
      h1.eq_of_length (by simp [hl])
    have h3 : P.data = d.data := by simpa using h2
    exact (hsafe P hP).1 (String.ext h3).symm
  · have hpre' : P.data ++ ['/'] <+: (d.data ++ ['/']) ++ nm := by
      simpa [List.append_assoc] using hpre
    have hd : d.data ++ ['/'] <+: (d.data ++ ['/']) ++ nm := List.prefix_append _ _
    rcases List.prefix_or_prefix_of_prefix hpre' hd with hc | hc
    · have := hc.length_le
      simp only [List.length_append, List.length_singleton] at this
      omega
    · have hc' : d.data ++ ['/'] <+: P.data :=
        isPre_of_isPre_append hc
          (by simp only [List.length_append, List.length_singleton]; omega)
      obtain ⟨q, hq⟩ := hc'
      rw [← hq] at hpre'
      rw [List.append_assoc (d.data ++ ['/']) q ['/']] at hpre'
      have h4 : q ++ ['/'] <+: nm := (List.prefix_append_right_inj _).mp hpre'
      obtain ⟨w, hw⟩ := h4
      apply hsl
      rw [← hw]
      simp

mutual
/-- Walking a subtree sitting at a safe path only produces safe paths — no
walked path is equal to or under a keep element, provided the keep list is
non-nested. -/
theorem walk_safe (t : FSTree) (d : String) (keep : List String)
    (hw : wf t = true) (hd : endsWithSlash d = false)
    (hnn : KeepNonNested keep) (hsafe : SafeFrom keep d) :
    ∀ e ∈ walk d t keep, SafeFrom keep e := by
  match t with
  | .file => intro e he; simp [walk] at he
  | .dir cs =>
    intro e he
    rw [walk] at he
    exact walkEntries_safe cs d keep (wf_dir hw).2 hd hnn hsafe e he

/-- Entries-level version of `walk_safe`. -/
theorem walkEntries_safe (cs : FSList) (d : String) (keep : List String)
    (hw : wfList cs = true) (hd : endsWithSlash d = false)
    (hnn : KeepNonNested keep) (hsafe : SafeFrom keep d) :
    ∀ e ∈ walkEntries d cs keep, SafeFrom keep e := by
  match cs with
  | .nil => intro e he; simp [walkEntries] at he
  | .cons name child rest =>
    intro e he
    obtain ⟨hv, hwc, hwr⟩ := wfList_cons hw
    simp only [walkEntries] at he
    rcases List.mem_append.mp he with hblk | hrest
    · split_ifs at hblk with hact hdir hact2
      · have hnk : childPath d name ∉ keep := by
          intro hk
          obtain ⟨p, hp, hpre⟩ := walk_action_recurse hact
          exact hnn (childPath d name) hk p hp hpre
        have hcsafe : SafeFrom keep (childPath d name) :=
          safe_child hsafe hnk (childPath_data hd) (validEntryName_iff.mp hv).2
        exact walk_safe child (childPath d name) keep hwc
          (endsWithSlash_childPath hd hv) hnn hcsafe e hblk
      · simp at hblk
      · rw [List.mem_singleton] at hblk
        subst hblk
        have hy := walk_action_yield_iff.mp hact2
        have hnk : childPath d name ∉ keep := fun hk => (hy _ hk).1 rfl
        exact safe_child hsafe hnk (childPath_data hd) (validEntryName_iff.mp hv).2
      · simp at hblk
    · exact walkEntries_safe rest d keep hwr hd hnn hsafe e hrest
end

/-! ### The destinations computed by move_dirty -/

lemma rstripSlash_eq_self {root : String} (hr : endsWithSlash root = false) :
    rstripSlash root = root := by
  apply String.ext
  show (root.data.reverse.dropWhile (fun c => c == '/')).reverse = root.data
  cases hcd : root.data.reverse with
  | nil =>
    simp only [List.dropWhile_nil, List.reverse_nil]
    exact (List.reverse_eq_nil_iff.mp hcd).symm
  | cons c cs =>
    have hc : ¬ (c == '/') = true := by
      rw [endsWithSlash_false_iff] at hr
      simp only [beq_iff_eq]
      intro he
      apply hr
      rw [← List.head?_reverse, hcd, he]
      rfl
    rw [List.dropWhile_cons, if_neg hc, ← hcd, List.reverse_reverse]

/-- For any walked path, the destination computed by `move_dirty`
(`os.path.join(target, path[len(root.rstrip('/')):][1:])`) equals the target
joined with the path's root-relative remainder by a single separator. -/
lemma move_dest_eq {root : String} {fs : FSTree} {keep : List String} {p : String}
    (hw : wf fs = true) (hr : endsWithSlash root = false)
    (hp : p ∈ walk root fs keep) {target1 : String}
    (ht : endsWithSlash target1 = false) (hte : target1 ≠ "") :
    os_path_join target1 (pydrop (pydrop p (pylen (rstripSlash root))) 1) =
      target1 ++ "/" ++ pydrop p (pylen root + 1) := by
  obtain ⟨n, s, hdata, hn, hsl, hs⟩ := walk_shape fs root keep hw hr p hp
  rw [rstripSlash_eq_self hr]
  have h1 : (pydrop p (pylen root)).data = '/' :: (n ++ s) := by
    show p.data.drop root.data.length = '/' :: (n ++ s)
    rw [hdata]
    exact List.drop_left root.data _
  have h2 : (pydrop (pydrop p (pylen root)) 1).data = n ++ s := by
    rw [pydrop_one_data, h1]
    rfl
  have hhead : (n ++ s).head? ≠ some '/' := by
    cases hn' : n with
    | nil => exact absurd hn' hn
    | cons c cs' =>
      simp only [List.cons_append, List.head?_cons]
      intro he
      have hce : c = '/' := Option.some.inj he
      exact hsl (by rw [hn', hce]; exact List.mem_cons_self _ _)
  have h3 : p.data.drop (root.data.length + 1) = n ++ s := by
    rw [hdata]
    have hassoc : root.data ++ '/' :: (n ++ s) = (root.data ++ ['/']) ++ (n ++ s) := by
      simp
    rw [hassoc]
    have hlen : root.data.length + 1 = (root.data ++ ['/']).length := by
      simp
    rw [hlen, List.drop_left]
  apply String.ext
  rw [os_path_join_data (pystartswith_slash_false (by rw [h2]; exact hhead))]
  rw [glue, if_neg (by simp [hte, ht]), h2]
  rw [String.data_append, append_slash_data]
  show target1.data ++ ['/'] ++ (n ++ s) = target1.data ++ ['/'] ++ p.data.drop (pylen root + 1)
  rw [show pylen root + 1 = root.data.length + 1 from rfl, h3]

/-! ### Auxiliary lemmas for `main` -/

lemma parseKeepArgs_eq_none {decode : String → Option (List String)} {args : List String}
    (h : ∃ a ∈ args, decode a = none) : parseKeepArgs decode args = none := by
  induction args with
  | nil => simp at h
  | cons a rest ih =>
    obtain ⟨b, hb, hdec⟩ := h
    rcases List.mem_cons.mp hb with rfl | hb'
    · simp [parseKeepArgs, hdec]
    · cases hda : decode a
      · simp [parseKeepArgs, hda]
      · simp [parseKeepArgs, hda, ih ⟨b, hb', hdec⟩]

/-! ### Claims -/

/-- C1 (amended): for a normalized root (no trailing separator), a
well-formed snapshot, and a keep list satisfying the normalization
invariants — pairwise non-nested, every element strictly under the root —
no path equal to a keep element or strictly under one appears in the walk
output. -/
theorem C1_walk_never_touches_keep (root : String) (fs : FSTree)
    (keep : List String) (hw : wf fs = true) (hr : endsWithSlash root = false)
    (hnn : ∀ P ∈ keep, ∀ Q ∈ keep, ¬ (P.data ++ ['/'] <+: Q.data))
    (hunder : ∀ P ∈ keep, (root.data ++ ['/'] <+: P.data)) :
    ∀ P ∈ keep, ∀ e ∈ walk root fs keep,
      ¬ (e = P ∨ (P.data ++ ['/'] <+: e.data)) := by
  have hsafe : SafeFrom keep root := by
    intro P hP
    constructor
    · intro he
      have hle := (hunder P hP).length_le
      rw [← he] at hle
      simp only [List.length_append, List.length_singleton] at hle
      omega
    · intro hpre
      have h1 := (hunder P hP).length_le
      have h2 := hpre.length_le
      simp only [List.length_append, List.length_singleton] at h1 h2
      omega
  intro P hP e he hor
  have hse := walk_safe fs root keep hw hr hnn hsafe e he P hP
  rcases hor with he' | hpre
  · exact hse.1 he'
  · exact hse.2 hpre

/-- Witness for C1: a concrete run where the sibling `"/r/b"` of the kept
directory `"/r/a"` is walked; it is neither the keep element nor under it. -/
theorem C1_walk_never_touches_keep_witness :
    ¬ ("/r/b" = "/r/a" ∨ ("/r/a".data ++ ['/'] <+: "/r/b".data)) :=
  C1_walk_never_touches_keep "/r"
    (.dir (.cons "a" (.dir (.cons "x" .file .nil)) (.cons "b" .file .nil)))
    ["/r/a"] (by decide) (by decide) (by decide)
    (by intro P hP; rw [List.mem_singleton] at hP; subst hP; exact ⟨['a'], by decide⟩)
    "/r/a" (List.mem_cons_self _ _) "/r/b" (by decide)

/-- C10: over a well-formed snapshot and a normalized root, the walked paths
are pairwise non-nested — no emitted path equals or lies strictly under
another — and every emitted path lies strictly under the root; the root
itself is never emitted.  This holds for every keep list. -/
theorem C10_walk_output_nonnested (root : String) (fs : FSTree)
    (keep : List String) (hw : wf fs = true) (hr : endsWithSlash root = false) :
    List.Pairwise (fun a b => a ≠ b ∧ ¬ (a.data ++ ['/'] <+: b.data) ∧
      ¬ (b.data ++ ['/'] <+: a.data)) (walk root fs keep) ∧
    ∀ e ∈ walk root fs keep, e ≠ root ∧ (root.data ++ ['/'] <+: e.data) := by
  constructor
  · exact walk_pairwise fs root keep hw hr
  · intro e he
    obtain ⟨n, s, hdata, hn, hsl, hs⟩ := walk_shape fs root keep hw hr e he
    constructor
    · intro he'
      have hd : e.data = root.data := by rw [he']
      rw [hdata] at hd
      have hlen := congrArg List.length hd
      simp only [List.length_append, List.length_cons] at hlen
      omega
    · refine ⟨n ++ s, ?_⟩
      rw [hdata]
      simp

/-- Witness for C10: a concrete two-entry walk; the root-strictness part at
the emitted path `"/r/b"`. -/
theorem C10_walk_output_nonnested_witness :
    "/r/b" ≠ "/r" ∧ ("/r".data ++ ['/'] <+: "/r/b".data) :=
  (C10_walk_output_nonnested "/r"
    (.dir (.cons "a" .file (.cons "b" .file .nil))) [] (by decide) (by decide)).2
    "/r/b" (by decide)

/-- C8: a directory child classified `"recurse"` is descended into and its
recursive results are spliced in without the child's own path being emitted;
a non-directory child classified `"recurse"` contributes nothing — it is
silently dropped, not an error. -/
theorem C8_recurse_directory_only (root name : String) (cs2 rest : FSList)
    (keep : List String)
    (hact : walk_action (childPath root name) keep = "recurse")
    (hr : endsWithSlash root = false) (hv : validEntryName name = true)
    (hw2 : wfList cs2 = true) :
    (walkEntries root (.cons name (.dir cs2) rest) keep =
        walkEntries (childPath root name) cs2 keep ++ walkEntries root rest keep ∧
      childPath root name ∉ walkEntries (childPath root name) cs2 keep) ∧
    walkEntries root (.cons name .file rest) keep = walkEntries root rest keep := by
  refine ⟨⟨?_, ?_⟩, ?_⟩
  · simp only [walkEntries]
    rw [if_pos hact]
    simp [FSTree.isDir, walk]
  · intro hmem
    obtain ⟨nm, s, hnm, hdata, hs⟩ := walkEntries_shape cs2 (childPath root name)
      keep hw2 (endsWithSlash_childPath hr hv) _ hmem
    have hlen := congrArg List.length hdata
    simp only [List.length_append, List.length_cons] at hlen
    omega
  · simp only [walkEntries]
    rw [if_pos hact]
    simp [FSTree.isDir]

/-- Witness for C8: a concrete recursive descent through `"/r/a"` with keep
element `"/r/a/b"`. -/
theorem C8_recurse_directory_only_witness :
    walkEntries "/r" (.cons "a" .file .nil) ["/r/a/b"] =
      walkEntries "/r" .nil ["/r/a/b"] :=
  (C8_recurse_directory_only "/r" "a" .nil .nil ["/r/a/b"]
    (by decide) (by decide) (by decide) (by decide)).2

/-- C6: for a normalized root, a well-formed snapshot, and a re-rooted
quarantine target that is nonempty and has no trailing separator, the move
effects of `move_dirty` are exactly: every source path yielded by the walk is
moved to the quarantine target joined by a single separator with the source's
path relative to the root (its remainder after `root + '/'`), preserving the
relative structure. -/
theorem C6_move_preserves_relative_path (root target : String)
    (targetIsDir : Bool) (fs : FSTree) (keep : List String)
    (hw : wf fs = true) (hr : endsWithSlash root = false)
    (ht : endsWithSlash (os_path_join root (pydrop target 1)) = false)
    (hte : os_path_join root (pydrop target 1) ≠ "") :
    ∀ src dst, Effect.move src dst ∈ move_dirty root target targetIsDir fs keep ↔
      (src ∈ walk root fs keep ∧
        dst = os_path_join root (pydrop target 1) ++ "/" ++
          pydrop src (pylen root + 1)) := by
  intro src dst
  simp only [move_dirty]
  constructor
  · intro hm
    rcases List.mem_append.mp hm with h | h
    · split_ifs at h with htd
      · rw [List.mem_singleton] at h
        exact absurd h (by simp)
      · simp at h
    · obtain ⟨p, hp, hin⟩ := List.mem_flatMap.mp h
      simp only [List.mem_cons, List.not_mem_nil, or_false] at hin
      rcases hin with hin | hin
      · exact absurd hin (by simp)
      · obtain ⟨rfl, rfl⟩ := Effect.move.inj hin
        exact ⟨hp, move_dest_eq hw hr hp ht hte⟩
  · rintro ⟨hp, rfl⟩
    refine List.mem_append.mpr (Or.inr (List.mem_flatMap.mpr ⟨src, hp, ?_⟩))
    rw [move_dest_eq hw hr hp ht hte]
    simp

/-- Witness for C6: a concrete one-entry run; the single move sends
`"/r/y"` to `"/r/t/y"`. -/
theorem C6_move_preserves_relative_path_witness :
    Effect.move "/r/y" "/r/t/y" ∈
      move_dirty "/r" "/t" false (.dir (.cons "y" .file .nil)) [] :=
  (C6_move_preserves_relative_path "/r" "/t" false (.dir (.cons "y" .file .nil))
    [] (by decide) (by decide) (by decide) (by decide) "/r/y" "/r/t/y").mpr
    ⟨by decide, by decide⟩

/-- C3 (amended): for fragments that begin with the separator *and do not
begin with a doubled separator*, the output of `normalize_keep` is sorted in
the code-point lexicographic order; its elements are exactly the base joined
with the surviving fragments; a fragment survives exactly when no distinct
fragment of the set is its strict string-ancestor; no output element is a
strict descendant of another; and for fragments `{"/a", "/a/b"}` the result
contains only the path for `"/a"`. -/
theorem C3_normalize_keep_canonical (root : String) (items : List String)
    (hfrag : ∀ f ∈ items, f.data.head? = some '/' ∧ (f.data.drop 1).head? ≠ some '/') :
    List.Sorted (fun a b => strle a b = true) (normalize_keep root items) ∧
      (∀ x ∈ normalize_keep root items, ∃ f ∈ items, survives items f = true ∧
        x = os_path_join root (pydrop f 1)) ∧
      (∀ f ∈ items, survives items f = true →
        os_path_join root (pydrop f 1) ∈ normalize_keep root items) ∧
      (∀ f ∈ items, (survives items f = true ↔
        ∀ g ∈ items, g ≠ f → ¬ (g.data ++ ['/'] <+: f.data))) ∧
      (∀ x ∈ normalize_keep root items, ∀ y ∈ normalize_keep root items,
        ¬ (x.data ++ ['/'] <+: y.data)) ∧
      normalize_keep root ["/a", "/a/b"] = [os_path_join root "a"] := by
  refine ⟨List.sorted_insertionSort _ _, ?_, ?_, ?_, normalize_keep_not_nested hfrag, rfl⟩
  · intro x hx
    rw [normalize_keep, pysorted, List.mem_insertionSort] at hx
    obtain ⟨f, hf, rfl⟩ := List.mem_map.mp hx
    exact ⟨f, (List.mem_filter.mp hf).1, (List.mem_filter.mp hf).2, rfl⟩
  · intro f hf hs
    rw [normalize_keep, pysorted, List.mem_insertionSort]
    exact List.mem_map.mpr ⟨f, List.mem_filter.mpr ⟨hf, hs⟩, rfl⟩
  · intro f _
    exact survives_iff

/-- Witness for C3: the redundancy-elimination example, with the fragment
hypothesis discharged by evaluation. -/
theorem C3_normalize_keep_canonical_witness :
    os_path_join "/r" (pydrop "/a" 1) ∈ normalize_keep "/r" ["/a", "/a/b"] :=
  (C3_normalize_keep_canonical "/r" ["/a", "/a/b"] (by decide)).2.2.1 "/a"
    (List.mem_cons_self _ _) (by decide)

/-- C4 (amended): for a set of fragments that begin with the separator and do
not begin with a doubled separator, `normalize_keep` at base `"/"` is
idempotent: feeding its output back in (as base-relative fragments) returns
the same sorted list. -/
theorem C4_normalize_keep_idempotent (items : List String)
    (hfrag : ∀ f ∈ items, f.data.head? = some '/' ∧ (f.data.drop 1).head? ≠ some '/') :
    normalize_keep "/" (normalize_keep "/" items) = normalize_keep "/" items := by
  have hmapid : ∀ l : List String,
      (∀ f ∈ l, f.data.head? = some '/' ∧ (f.data.drop 1).head? ≠ some '/') →
      l.map (fun f => os_path_join "/" (pydrop f 1)) = l := by
    intro l hl
    have hcongr := List.map_congr_left
      (fun f hf => os_path_join_root_drop (hl f hf).1 (hl f hf).2)
    rw [hcongr]
    exact List.map_id' l
  have hL0sub : ∀ x ∈ items.filter (survives items), x ∈ items :=
    fun x hx => (List.mem_filter.mp hx).1
  have hN1 : normalize_keep "/" items = pysorted (items.filter (survives items)) := by
    rw [normalize_keep,
      hmapid (items.filter (survives items)) (fun f hf => hfrag f (hL0sub f hf))]
  have hmemN1 : ∀ x : String, x ∈ pysorted (items.filter (survives items)) ↔
      x ∈ items.filter (survives items) :=
    fun x => List.mem_insertionSort _
  have hfilter : (pysorted (items.filter (survives items))).filter
      (survives (pysorted (items.filter (survives items)))) =
      pysorted (items.filter (survives items)) := by
    rw [List.filter_eq_self]
    intro x hx
    rw [survives_iff]
    intro g hg hne hanc
    have hgI := hL0sub g ((hmemN1 g).mp hg)
    have hxS := (List.mem_filter.mp ((hmemN1 x).mp hx)).2
    exact (survives_iff.mp hxS g hgI hne) hanc
  rw [hN1, normalize_keep, hfilter,
    hmapid (pysorted (items.filter (survives items)))
      (fun f hf => hfrag f (hL0sub f ((hmemN1 f).mp hf)))]
  exact List.Sorted.insertionSort_eq (List.sorted_insertionSort _ _)

/-- Witness for C4: a concrete idempotent run, with the fragment hypothesis
discharged by evaluation. -/
theorem C4_normalize_keep_idempotent_witness :
    normalize_keep "/" (normalize_keep "/" ["/b/c", "/a", "/b"]) =
      normalize_keep "/" ["/b/c", "/a", "/b"] :=
  C4_normalize_keep_idempotent ["/b/c", "/a", "/b"] (by decide)

/-- C5 (amended): `walk_action` answers `"recurse"` only when some keep-list
element has `entry + '/'` as a prefix (not necessarily a proper one); sibling
names that merely share a string prefix do not match: for entry `"/a"` and
keep list `["/ab"]` the answer is `"yield"`. -/
theorem C5_recurse_needs_ancestor (entry : String) (keep : List String) :
    (walk_action entry keep = "recurse" →
      ∃ p ∈ keep, (entry.data ++ ['/'] <+: p.data)) ∧
    walk_action "/a" ["/ab"] = "yield" :=
  ⟨walk_action_recurse, by decide⟩

/-- Witness for C5: a concrete recursive classification, with the hypothesis
discharged by evaluation. -/
theorem C5_recurse_needs_ancestor_witness :
    ∃ p ∈ (["/x/y"] : List String), ("/x".data ++ ['/'] <+: p.data) :=
  (C5_recurse_needs_ancestor "/x" ["/x/y"]).1 (by decide)

/-- Counterexample to C5 as stated: with keep list `["/a/"]` the entry `"/a"`
is classified `"recurse"`, yet no keep element has `entry + '/'` as a
*proper* prefix — the only element is exactly `entry + '/'`. -/
theorem C5_counterexample :
    walk_action "/a" ["/a/"] = "recurse" ∧
      ¬ ∃ p ∈ (["/a/"] : List String),
        (("/a".data ++ ['/']) <+: p.data ∧ "/a".data ++ ['/'] ≠ p.data) := by
  decide

/-- C7: whenever a directory already exists at the quarantine target path
(the initial `isdir` probe answered true), `move_dirty` removes it
recursively, and this removal is the very first effect of the run — every
move occurs strictly later in the effect sequence. -/
theorem C7_preclean_before_moves (root target : String) (fs : FSTree)
    (keep : List String) :
    (move_dirty root target true fs keep).head? =
        some (Effect.rmtree (os_path_join root (pydrop target 1))) ∧
      ∀ n src dst, (move_dirty root target true fs keep)[n]? =
          some (Effect.move src dst) → 0 < n := by
  constructor
  · simp [move_dirty]
  · intro n src dst h
    cases n with
    | zero => simp [move_dirty] at h
    | succ n => exact Nat.succ_pos n

/-- Witness for C7: a run with one movable entry; the rmtree heads the trace
and the move sits at index 2. -/
theorem C7_preclean_before_moves_witness : 0 < 2 :=
  (C7_preclean_before_moves "/r" "/t" (.dir (.cons "y" .file .nil)) []).2
    2 "/r/y" "/r/t/y" (by decide)

/-- C9: if some keep-fragment argument fails to decode, `main` raises before
reaching `move_dirty`: the run produces no effect trace at all — in
particular neither the quarantine pre-clean nor any move has happened. -/
theorem C9_bad_fragment_no_mutation (decode : String → Option (List String))
    (root : String) (args mountpoints : List String) (ts : String)
    (fs : FSTree) (targetIsDir : Bool) (h : ∃ a ∈ args, decode a = none) :
    mainModel decode root args mountpoints ts fs targetIsDir = none := by
  simp [mainModel, parseKeepArgs_eq_none h]

/-- Witness for C9: a run whose single keep argument fails to decode. -/
theorem C9_bad_fragment_no_mutation_witness :
    mainModel (fun _ => none) "/r" ["x"] [] "T" FSTree.file false = none :=
  C9_bad_fragment_no_mutation (fun _ => none) "/r" ["x"] [] "T" FSTree.file false
    ⟨"x", List.mem_cons_self _ _, rfl⟩

/-- C2 (amended): the root's own mount-point status has no effect on the run:
the mount enumeration only retains mount points strictly under the root
(`x.startswith(root + '/')`), which the root itself never satisfies, so a run
whose only mount point is the root behaves exactly like a run with no mount
points — with no keep fragments the keep list reduces to the quarantine base
`root + "/oldroot"`, and entries under the root are still moved. -/
theorem C2_root_mount_ignored (decode : String → Option (List String))
    (root : String) (args : List String) (ts : String) (fs : FSTree)
    (targetIsDir : Bool) :
    mainModel decode root args [root] ts fs targetIsDir =
      mainModel decode root args [] ts fs targetIsDir := by
  simp [mainModel, List.filter, pystartswith_self_slash]

/-- Counterexample to C2 as stated: root `"/data"` is itself a mount point,
there is no other mount point, and no keep fragments are supplied, yet the
run does move something: the child `"/data/y"` is moved into the quarantine
directory. -/
theorem C2_counterexample :
    ∃ effs, mainModel (fun _ => none) "/data" [] ["/data"] "T"
        (.dir (.cons "y" .file .nil)) false = some effs ∧
      Effect.move "/data/y" "/data/oldroot/T/y" ∈ effs :=
  ⟨[Effect.makedirs "/data/oldroot/T", Effect.move "/data/y" "/data/oldroot/T/y"],
    rfl, by decide⟩

/-- Counterexample to C1 as stated (for *every* keep list): with the
non-normalized keep list `["/r/a/b", "/r/a"]` the walk classifies `"/r/a"`
as `"recurse"` (because of the earlier element `"/r/a/b"`) and then emits
`"/r/a/x"`, a path strictly under the keep element `"/r/a"`. -/
theorem C1_counterexample :
    "/r/a" ∈ (["/r/a/b", "/r/a"] : List String) ∧
      "/r/a/x" ∈ walk "/r" (.dir (.cons "a" (.dir (.cons "x" .file .nil)) .nil))
        ["/r/a/b", "/r/a"] ∧
      ("/r/a".data ++ ['/'] <+: "/r/a/x".data) := by
  refine ⟨by decide, by decide, ⟨['x'], by decide⟩⟩

/-- Counterexample to C3 as stated (fragments only required to begin with the
separator): with base `"/r"` and fragments `{"/a", "//r/a/b"}` — both
beginning with `'/'` — both fragments survive, but `os.path.join` treats the
second one (whose remainder after dropping one character is absolute) as
replacing the base, and the output `["/r/a", "/r/a/b"]` contains an element
that is a strict descendant of another. -/
theorem C3_counterexample :
    (∀ f ∈ (["/a", "//r/a/b"] : List String), f.data.head? = some '/') ∧
      normalize_keep "/r" ["/a", "//r/a/b"] = ["/r/a", "/r/a/b"] ∧
      ("/r/a".data ++ ['/'] <+: "/r/a/b".data) := by
  refine ⟨by decide, by decide, ⟨['b'], by decide⟩⟩

/-- Counterexample to C4 as stated (fragments only required to begin with the
separator): for the fragment `"///a"`, one application of `normalize_keep`
at base `"/"` strips one leading slash (`os.path.join("/", "//a") = "//a"`),
so a second application produces a different list. -/
theorem C4_counterexample :
    ("///a").data.head? = some '/' ∧
      normalize_keep "/" (normalize_keep "/" ["///a"]) ≠
        normalize_keep "/" ["///a"] := by
  decide

end Eyd
